import Mathlib

/-!
Verification of the smallset library: a slice-backed sorted-set container.

The container state is modelled as the list of elements of the backing slice,
in storage order. Element types instantiate a linear order, matching the Go
constraint on ordered element types. Capacity is a performance hint with no
observable effect and is not modelled. A Go panic is modelled as the value
none of an Option-returning function.
-/

namespace Smallset

variable {α : Type} [LinearOrder α]

/-- Model of the Go standard library function slices.BinarySearch by its
documented contract: it returns the smallest index at which the target could
be inserted while keeping the slice sorted (the index of the first element
that is not less than the target), together with whether the element at that
index equals the target. On the sorted slices maintained by the container
this coincides with the binary search the library performs. -/
def binarySearch : List α → α → Nat × Bool
  | [], _ => (0, false)
  | a :: t, e =>
    if a < e then
      let r := binarySearch t e
      (r.1 + 1, r.2)
    else (0, decide (a = e))

/-- Model of slices.Insert at a single position: the Go call
slices.Insert(s, i, e) places e at index i and shifts the suffix up. -/
def insertAt (s : List α) (i : Nat) (e : α) : List α :=
  s.take i ++ e :: s.drop i

/-- Model of slices.Delete: the Go call slices.Delete(s, i, j) removes the
elements with indices in the half-open range from i to j. -/
def deleteRange (s : List α) (i j : Nat) : List α :=
  s.take i ++ s.drop j

/-- Model of slices.Compact: collapses runs of adjacent equal elements to a
single representative. On values of an ordered type the elements of a run are
identical, so which representative survives is immaterial. -/
def compact : List α → List α
  | [] => []
  | [a] => [a]
  | a :: b :: t => if a = b then compact (b :: t) else a :: compact (b :: t)

/-- Model of slices.Sort. The Go sort is an unstable in-place sort, but on
elements of a linearly ordered type the sorted permutation of a given
sequence is unique, so any correct sort is modelled by insertion sort. -/
def sortItems (l : List α) : List α := l.insertionSort (· ≤ ·)

/-- Model of NewFrom (ordered.go): clones the input, sorts it, and removes
adjacent duplicates; an empty input yields an empty container. -/
def newFrom (items : List α) : List α :=
  if items.isEmpty then [] else compact (sortItems items)

/-- Model of Ordered.Add (ordered.go): binary-search for the element; if
found, leave the state unchanged and report false, otherwise insert at the
reported position and report true. -/
def add (s : List α) (e : α) : List α × Bool :=
  let r := binarySearch s e
  if r.2 then (s, false) else (insertAt s r.1 e, true)

/-- Model of Ordered.Remove (ordered.go): binary-search for the element; if
absent, leave the state unchanged and report false, otherwise delete the
element at the reported position and report true. -/
def remove (s : List α) (e : α) : List α × Bool :=
  let r := binarySearch s e
  if r.2 then (deleteRange s r.1 (r.1 + 1), true) else (s, false)

/-- Model of Ordered.RemoveBetween (ordered.go): panics (none) when
max is less than min; otherwise deletes the index range between the two
binary-search positions and returns the new state with the removed count. -/
def removeBetween (s : List α) (mn mx : α) : Option (List α × Nat) :=
  if mx < mn then none
  else
    let start := (binarySearch s mn).1
    let stop := (binarySearch s mx).1
    if start = stop then some (s, 0)
    else some (deleteRange s start stop, stop - start)

/-- Model of Ordered.MinK (ordered.go): panics (none) on a negative count,
otherwise clones the prefix of length k clamped to the size. -/
def minK (s : List α) (k : Int) : Option (List α) :=
  if k < 0 then none
  else some (s.take (min k.toNat s.length))

/-- Model of Ordered.MaxK (ordered.go): panics (none) on a negative count,
otherwise clones the suffix of length k clamped to the size. -/
def maxK (s : List α) (k : Int) : Option (List α) :=
  if k < 0 then none
  else some (s.drop (s.length - min k.toNat s.length))

/-- Model of the descending loop body of Ordered.BetweenDesc: starting at
index i and walking down to index 0, read the element at the current index
(a read out of range is a Go panic, modelled as none), stop as soon as the
element is not greater than min, and otherwise yield it and continue. -/
def betweenDescLoop (s : List α) (mn : α) : Nat → Option (List α)
  | 0 =>
    match s[0]? with
    | none => none
    | some v => if mn < v then some [v] else some []
  | i + 1 =>
    match s[i + 1]? with
    | none => none
    | some v =>
      if mn < v then (betweenDescLoop s mn i).map (fun r => v :: r)
      else some []

/-- Model of Ordered.BetweenDesc (ordered.go): panics (none) when max is less
than min; otherwise binary-searches max, steps the start index down by one
when max is absent and the index is positive, and runs the descending loop
collecting the yielded elements in order. -/
def betweenDesc (s : List α) (mx mn : α) : Option (List α) :=
  if mx < mn then none
  else
    let r := binarySearch s mx
    let start := if !r.2 && decide (0 < r.1) then r.1 - 1 else r.1
    betweenDescLoop s mn start

/-- Model of the two-pointer loop of Ordered.Intersect: on strict
inequality advance the side that is behind, on equality keep the element
once and advance both; when either side is exhausted nothing more is kept. -/
def interLoop : List α → List α → List α
  | [], _ => []
  | _, [] => []
  | a :: s, b :: o =>
    if a < b then interLoop s (b :: o)
    else if b < a then interLoop (a :: s) o
    else a :: interLoop s o
termination_by s o => s.length + o.length

/-- Model of Ordered.Intersect (ordered.go) including its empty-input
shortcut. -/
def intersect (s o : List α) : List α :=
  if min s.length o.length = 0 then [] else interLoop s o

/-- Model of the two-pointer loop of Ordered.Difference including the final
append of the unconsumed tail of the receiver. -/
def diffLoop : List α → List α → List α
  | [], _ => []
  | s, [] => s
  | a :: s, b :: o =>
    if a < b then a :: diffLoop s (b :: o)
    else if b < a then diffLoop (a :: s) o
    else diffLoop s o
termination_by s o => s.length + o.length

/-- Model of Ordered.Difference (ordered.go) including its empty-input
shortcuts. -/
def difference (s o : List α) : List α :=
  if s.isEmpty then [] else if o.isEmpty then s else diffLoop s o

/-- Model of the two-pointer loop of Ordered.Union including the final
append of both unconsumed tails. -/
def unionLoop : List α → List α → List α
  | [], o => o
  | s, [] => s
  | a :: s, b :: o =>
    if a < b then a :: unionLoop s (b :: o)
    else if b < a then b :: unionLoop (a :: s) o
    else a :: unionLoop s o
termination_by s o => s.length + o.length

/-- Model of Ordered.Union (ordered.go) including its empty-input
shortcuts. -/
def union (s o : List α) : List α :=
  if s.isEmpty then o else if o.isEmpty then s else unionLoop s o

/-- Model of the two-pointer loop of Ordered.SymmetricDifference including
the final append of both unconsumed tails. -/
def sdiffLoop : List α → List α → List α
  | [], o => o
  | s, [] => s
  | a :: s, b :: o =>
    if a < b then a :: sdiffLoop s (b :: o)
    else if b < a then b :: sdiffLoop (a :: s) o
    else sdiffLoop s o
termination_by s o => s.length + o.length

/-- Model of Ordered.SymmetricDifference (ordered.go) including its
empty-input shortcuts. -/
def symmetricDifference (s o : List α) : List α :=
  if s.isEmpty then o else if o.isEmpty then s else sdiffLoop s o

/-- Model of the two-pointer loop of Ordered.Partition including the final
appends of the two unconsumed tails to the first and third outputs. -/
def partitionLoop : List α → List α → List α × List α × List α
  | [], o => ([], [], o)
  | s, [] => (s, [], [])
  | a :: s, b :: o =>
    if a < b then
      let r := partitionLoop s (b :: o)
      (a :: r.1, r.2.1, r.2.2)
    else if b < a then
      let r := partitionLoop (a :: s) o
      (r.1, r.2.1, b :: r.2.2)
    else
      let r := partitionLoop s o
      (r.1, a :: r.2.1, r.2.2)
termination_by s o => s.length + o.length

/-- Model of Ordered.Partition (ordered.go) including its empty-input
shortcuts. -/
def partition (s o : List α) : List α × List α × List α :=
  if s.isEmpty then ([], [], o)
  else if o.isEmpty then (s, [], [])
  else partitionLoop s o

/-- Model of the folding phase of the package-level Intersect (ordered.go):
running intersection with each further set; the write-back loop over the
reusable buffer performs exactly the two-pointer intersection of the running
result with the next set, and the fold stops early once the running result
is empty. -/
def intersectFold (inter : List α) (sets : List (List α)) : List α :=
  match sets with
  | [] => inter
  | set :: rest =>
    let next := interLoop inter set
    if next.isEmpty then next else intersectFold next rest

/-- Model of the package-level N-ary Intersect (ordered.go): zero inputs give
an empty container and one input gives its clone; otherwise the inputs are
sorted by ascending size (the Go sort is unstable and may order equal-sized
inputs either way; the result is proved independent of that order) and the
two-pointer intersection is folded over them starting from a clone of the
smallest, stopping early on an empty running result. -/
def intersectMany (sets : List (List α)) : List α :=
  match sets with
  | [] => []
  | [s] => s
  | s₁ :: s₂ :: rest =>
    match (s₁ :: s₂ :: rest).insertionSort (fun u v => u.length ≤ v.length) with
    | [] => []
    | first :: more => if first.isEmpty then first else intersectFold first more

/-- State-passing model of Ordered.Intersect: the call returns the post-call
snapshots of both inputs together with the result. The source writes only to
the freshly allocated result container (make and append), never to the items
of either input, so both snapshots pass through unchanged. -/
def intersectCall (s o : List α) : List α × List α × List α := (s, o, intersect s o)

/-- State-passing model of Ordered.Difference; see intersectCall. -/
def differenceCall (s o : List α) : List α × List α × List α := (s, o, difference s o)

/-- State-passing model of Ordered.Union; see intersectCall. -/
def unionCall (s o : List α) : List α × List α × List α := (s, o, union s o)

/-- State-passing model of Ordered.SymmetricDifference; see intersectCall. -/
def symmetricDifferenceCall (s o : List α) : List α × List α × List α :=
  (s, o, symmetricDifference s o)

/-- State-passing model of Ordered.Partition; see intersectCall. -/
def partitionCall (s o : List α) : List α × List α × (List α × List α × List α) :=
  (s, o, partition s o)

/-- State-passing model of NewFrom (ordered.go): the first component is the
callers slice after the call and the second the adopted storage of the new
container. The source clones the input before sorting, so the callers slice
passes through unchanged. -/
def newFromCall (items : List α) : List α × List α := (items, newFrom items)

/-- State-passing model of From (set.go) at element type Int: the first
component is the callers slice after the call (same length as before) and
the second the storage adopted by the new container. The source sorts the
callers backing array in place and compacts it in place; following the Go
standard library, slices.Compact zeroes the slots between the compacted
length and the original length, so the caller afterwards sees the compacted
run followed by zero values. On an empty input the constructor allocates a
fresh empty container and the callers (empty) slice is untouched. -/
def setFrom (items : List Int) : List Int × List Int :=
  if items.isEmpty then (items, [])
  else
    let sorted := sortItems items
    let compacted := compact sorted
    (compacted ++ List.replicate (sorted.length - compacted.length) 0, compacted)

/-- Model of the Custom container (custom.go): the backing slice together
with the comparator fixed at construction. -/
structure Custom (T : Type) where
  items : List T
  cmp : T → T → Int

/-- Model of slices.EqualFunc as used by Custom.IsEqual: the lists have the
same length and corresponding elements compare as equal. -/
def Custom.equalFunc {T : Type} (c : T → T → Int) : List T → List T → Bool
  | [], [] => true
  | a :: s, b :: o => decide (c a b = 0) && Custom.equalFunc c s o
  | _, _ => false

/-- Model of Custom.IsEqual (custom.go): pointwise equivalence of the two
backing slices under the comparator of the receiver. -/
def Custom.isEqual {T : Type} (s o : Custom T) : Bool :=
  Custom.equalFunc s.cmp s.items o.items

/-- Model of the two-pointer loop of Custom.Intersect, with every comparison
made through the comparator c of the receiver. -/
def Custom.interLoop {T : Type} (c : T → T → Int) : List T → List T → List T
  | [], _ => []
  | _, [] => []
  | a :: s, b :: o =>
    if c a b < 0 then Custom.interLoop c s (b :: o)
    else if c b a < 0 then Custom.interLoop c (a :: s) o
    else a :: Custom.interLoop c s o
termination_by s o => s.length + o.length

/-- Model of Custom.Intersect (custom.go): both the empty shortcut and the
loop result carry the comparator of the receiver. -/
def Custom.intersect {T : Type} (s o : Custom T) : Custom T :=
  if min s.items.length o.items.length = 0 then ⟨[], s.cmp⟩
  else ⟨Custom.interLoop s.cmp s.items o.items, s.cmp⟩

/-- Model of the two-pointer loop of Custom.Difference, comparisons through
the comparator c of the receiver, with the receiver tail appended. -/
def Custom.diffLoop {T : Type} (c : T → T → Int) : List T → List T → List T
  | [], _ => []
  | s, [] => s
  | a :: s, b :: o =>
    if c a b < 0 then a :: Custom.diffLoop c s (b :: o)
    else if c b a < 0 then Custom.diffLoop c (a :: s) o
    else Custom.diffLoop c s o
termination_by s o => s.length + o.length

/-- Model of Custom.Difference (custom.go): every allocated result carries
the comparator of the receiver. -/
def Custom.difference {T : Type} (s o : Custom T) : Custom T :=
  if s.items.isEmpty then ⟨[], s.cmp⟩
  else if o.items.isEmpty then ⟨s.items, s.cmp⟩
  else ⟨Custom.diffLoop s.cmp s.items o.items, s.cmp⟩

/-- Model of the two-pointer loop of Custom.Union, comparisons through the
comparator c of the receiver, with both tails appended. -/
def Custom.unionLoop {T : Type} (c : T → T → Int) : List T → List T → List T
  | [], o => o
  | s, [] => s
  | a :: s, b :: o =>
    if c a b < 0 then a :: Custom.unionLoop c s (b :: o)
    else if c b a < 0 then b :: Custom.unionLoop c (a :: s) o
    else a :: Custom.unionLoop c s o
termination_by s o => s.length + o.length

/-- Model of Custom.Union (custom.go). Note the empty-receiver shortcut
returns a clone of the other container, which carries the comparator of the
other container, not that of the receiver. -/
def Custom.union {T : Type} (s o : Custom T) : Custom T :=
  if s.items.isEmpty then ⟨o.items, o.cmp⟩
  else if o.items.isEmpty then ⟨s.items, s.cmp⟩
  else ⟨Custom.unionLoop s.cmp s.items o.items, s.cmp⟩

/-- Model of the two-pointer loop of Custom.SymmetricDifference,
comparisons through the comparator c of the receiver, with both tails
appended. -/
def Custom.sdiffLoop {T : Type} (c : T → T → Int) : List T → List T → List T
  | [], o => o
  | s, [] => s
  | a :: s, b :: o =>
    if c a b < 0 then a :: Custom.sdiffLoop c s (b :: o)
    else if c b a < 0 then b :: Custom.sdiffLoop c (a :: s) o
    else Custom.sdiffLoop c s o
termination_by s o => s.length + o.length

/-- Model of Custom.SymmetricDifference (custom.go). As with Custom.union,
the empty-receiver shortcut clones the other container together with the
comparator of the other container. -/
def Custom.symmetricDifference {T : Type} (s o : Custom T) : Custom T :=
  if s.items.isEmpty then ⟨o.items, o.cmp⟩
  else if o.items.isEmpty then ⟨s.items, s.cmp⟩
  else ⟨Custom.sdiffLoop s.cmp s.items o.items, s.cmp⟩

/-- Model of the two-pointer loop of Custom.Partition, comparisons through
the comparator c of the receiver, with the two tails appended to the first
and third outputs. -/
def Custom.partitionLoop {T : Type} (c : T → T → Int) :
    List T → List T → List T × List T × List T
  | [], o => ([], [], o)
  | s, [] => (s, [], [])
  | a :: s, b :: o =>
    if c a b < 0 then
      let r := Custom.partitionLoop c s (b :: o)
      (a :: r.1, r.2.1, r.2.2)
    else if c b a < 0 then
      let r := Custom.partitionLoop c (a :: s) o
      (r.1, r.2.1, b :: r.2.2)
    else
      let r := Custom.partitionLoop c s o
      (r.1, a :: r.2.1, r.2.2)
termination_by s o => s.length + o.length

/-- Model of Custom.Partition (custom.go). When the receiver is empty the
third output is a clone of the other container carrying the comparator of
the other container; in every other case all outputs carry the comparator
of the receiver. -/
def Custom.partition {T : Type} (s o : Custom T) : Custom T × Custom T × Custom T :=
  if s.items.isEmpty then (⟨[], s.cmp⟩, ⟨[], s.cmp⟩, ⟨o.items, o.cmp⟩)
  else if o.items.isEmpty then (⟨s.items, s.cmp⟩, ⟨[], s.cmp⟩, ⟨[], s.cmp⟩)
  else
    let r := Custom.partitionLoop s.cmp s.items o.items
    (⟨r.1, s.cmp⟩, ⟨r.2.1, s.cmp⟩, ⟨r.2.2, s.cmp⟩)

/-- States of an Ordered container reachable by construction (New or
NewFrom) followed by any finite sequence of Add and Remove calls. -/
inductive Reachable : List α → Prop
  | newEmpty : Reachable []
  | ofBatch (items : List α) : Reachable (newFrom items)
  | ofAdd {s : List α} (e : α) : Reachable s → Reachable (add s e).1
  | ofRemove {s : List α} (e : α) : Reachable s → Reachable (remove s e).1

/-! Helper lemmas about the binary-search model. -/

lemma take_length_takeWhile (p : α → Bool) (l : List α) :
    l.take (l.takeWhile p).length = l.takeWhile p := by
  induction l with
  | nil => rfl
  | cons a t ih =>
    by_cases h : p a
    · simp [List.takeWhile_cons, h, ih]
    · simp [List.takeWhile_cons, h]

lemma drop_length_takeWhile (p : α → Bool) (l : List α) :
    l.drop (l.takeWhile p).length = l.dropWhile p := by
  induction l with
  | nil => rfl
  | cons a t ih =>
    by_cases h : p a
    · simp [List.takeWhile_cons, List.dropWhile_cons, h, ih]
    · simp [List.takeWhile_cons, List.dropWhile_cons, h]

lemma dropWhile_head_false {p : α → Bool} {l : List α} {h : α} {t : List α}
    (he : l.dropWhile p = h :: t) : p h = false := by
  induction l with
  | nil => simp at he
  | cons a l ih =>
    by_cases hp : p a
    · exact ih (by simpa [List.dropWhile_cons, hp] using he)
    · rw [List.dropWhile_cons, if_neg (by simp [hp])] at he
      cases he
      simpa using hp

lemma binarySearch_fst (s : List α) (e : α) :
    (binarySearch s e).1 = (s.takeWhile (fun a => decide (a < e))).length := by
  induction s with
  | nil => rfl
  | cons a t ih =>
    by_cases h : a < e
    · simp [binarySearch, h, List.takeWhile_cons, ih]
    · simp [binarySearch, h, List.takeWhile_cons]

lemma binarySearch_take (s : List α) (e : α) :
    s.take (binarySearch s e).1 = s.takeWhile (fun a => decide (a < e)) := by
  rw [binarySearch_fst, take_length_takeWhile]

lemma binarySearch_drop (s : List α) (e : α) :
    s.drop (binarySearch s e).1 = s.dropWhile (fun a => decide (a < e)) := by
  rw [binarySearch_fst, drop_length_takeWhile]

lemma binarySearch_found (s : List α) (e : α) :
    (binarySearch s e).2 = true ↔
      ∃ t, s.dropWhile (fun a => decide (a < e)) = e :: t := by
  induction s with
  | nil => simp [binarySearch]
  | cons a t ih =>
    by_cases h : a < e
    · simpa [binarySearch, h, List.dropWhile_cons] using ih
    · simp only [binarySearch, if_neg h, List.dropWhile_cons, decide_eq_false h]
      simp only [Bool.false_eq_true, if_false, decide_eq_true_eq]
      constructor
      · rintro rfl; exact ⟨t, rfl⟩
      · rintro ⟨u, hu⟩; cases hu; rfl

lemma binarySearch_found_iff_mem {s : List α} (hs : List.Pairwise (· < ·) s) (e : α) :
    (binarySearch s e).2 = true ↔ e ∈ s := by
  induction s with
  | nil => simp [binarySearch]
  | cons a t ih =>
    obtain ⟨ha, ht⟩ := List.pairwise_cons.mp hs
    by_cases h : a < e
    · rw [show binarySearch (a :: t) e = ((binarySearch t e).1 + 1, (binarySearch t e).2) by
        simp [binarySearch, h]]
      rw [ih ht]
      simp only [List.mem_cons]
      constructor
      · exact Or.inr
      · rintro (rfl | hm)
        · exact absurd h (lt_irrefl e)
        · exact hm
    · rw [show binarySearch (a :: t) e = (0, decide (a = e)) by simp [binarySearch, h]]
      simp only [decide_eq_true_eq, List.mem_cons]
      constructor
      · rintro rfl; exact Or.inl rfl
      · rintro (rfl | hm)
        · rfl
        · exact absurd (ha e hm) h

/-! Sortedness preservation: the container invariant. -/

lemma mem_insertAt {s : List α} {i : Nat} {e x : α} :
    x ∈ insertAt s i e ↔ x = e ∨ x ∈ s := by
  unfold insertAt
  conv_rhs => rw [← List.take_append_drop i s]
  simp only [List.mem_append, List.mem_cons]
  tauto

lemma sorted_insertAt {s : List α} (hs : List.Pairwise (· < ·) s) {e : α}
    (hf : (binarySearch s e).2 = false) :
    List.Pairwise (· < ·) (insertAt s (binarySearch s e).1 e) := by
  unfold insertAt
  rw [binarySearch_take, binarySearch_drop]
  set p : α → Bool := fun a => decide (a < e) with hp
  have hA : List.Pairwise (· < ·) (s.takeWhile p) :=
    hs.sublist (List.takeWhile_sublist _)
  have hB : List.Pairwise (· < ·) (s.dropWhile p) :=
    hs.sublist (List.dropWhile_sublist _)
  have hBe : ∀ y ∈ s.dropWhile p, e < y := by
    intro y hy
    rcases hd : s.dropWhile p with _ | ⟨h, t⟩
    · simp [hd] at hy
    · have hhead : ¬ h < e := by
        have := dropWhile_head_false hd
        simpa [hp] using this
      have hne : h ≠ e := by
        intro hhe
        have : (binarySearch s e).2 = true :=
          (binarySearch_found s e).mpr ⟨t, by rw [hd, hhe]⟩
        simp [this] at hf
      have heh : e < h := lt_of_le_of_ne (not_lt.mp hhead) (Ne.symm hne)
      rw [hd] at hy
      rcases List.mem_cons.mp hy with rfl | hyt
      · exact heh
      · exact lt_trans heh ((List.pairwise_cons.mp (hd ▸ hB)).1 y hyt)
  rw [List.pairwise_append]
  refine ⟨hA, ?_, ?_⟩
  · rw [List.pairwise_cons]
    exact ⟨hBe, hB⟩
  · intro x hx y hy
    have hxe : x < e := by
      have := List.mem_takeWhile_imp hx
      simpa [hp] using this
    rcases List.mem_cons.mp hy with rfl | hyB
    · exact hxe
    · exact lt_trans hxe (hBe y hyB)

lemma sorted_add {s : List α} (hs : List.Pairwise (· < ·) s) (e : α) :
    List.Pairwise (· < ·) (add s e).1 := by
  unfold add
  by_cases hf : (binarySearch s e).2
  · simpa [hf] using hs
  · simp only [Bool.not_eq_true] at hf
    simpa [hf] using sorted_insertAt hs hf

lemma deleteRange_one_sublist (s : List α) (i : Nat) :
    (deleteRange s i (i + 1)).Sublist s := by
  unfold deleteRange
  have hdrop : s.drop (i + 1) = (s.drop i).tail := by
    rw [← List.drop_one, List.drop_drop, Nat.add_comm]
  have hsub : (s.take i ++ s.drop (i + 1)).Sublist (s.take i ++ s.drop i) := by
    rw [hdrop]; exact (List.tail_sublist _).append_left _
  rw [List.take_append_drop] at hsub
  exact hsub

lemma sorted_remove {s : List α} (hs : List.Pairwise (· < ·) s) (e : α) :
    List.Pairwise (· < ·) (remove s e).1 := by
  unfold remove
  by_cases hf : (binarySearch s e).2
  · simpa [hf] using hs.sublist (deleteRange_one_sublist s _)
  · simpa [hf] using hs

lemma compact_head (x : α) (t : List α) : (compact (x :: t)).head? = some x := by
  induction t generalizing x with
  | nil => rfl
  | cons y t ih =>
    by_cases h : x = y
    · rw [show compact (x :: y :: t) = compact (y :: t) by simp [compact, h], ih, h]
    · rw [show compact (x :: y :: t) = x :: compact (y :: t) by simp [compact, h]]
      rfl

lemma compact_chain (l : List α) :
    List.Pairwise (· ≤ ·) l → List.Chain' (· < ·) (compact l) := by
  induction l using compact.induct with
  | case1 => intro _; exact List.chain'_nil
  | case2 a => intro _; simp [compact]
  | case3 b t ih =>
    intro h
    rw [show compact (b :: b :: t) = compact (b :: t) by simp [compact]]
    exact ih h.tail
  | case4 a b t hab ih =>
    intro h
    rw [show compact (a :: b :: t) = a :: compact (b :: t) by simp [compact, hab]]
    rw [List.chain'_cons']
    refine ⟨?_, ih h.tail⟩
    intro y hy
    rw [compact_head b t] at hy
    cases hy
    exact lt_of_le_of_ne ((List.pairwise_cons.mp h).1 b (by simp)) hab

lemma sorted_newFrom (items : List α) : List.Pairwise (· < ·) (newFrom items) := by
  unfold newFrom
  by_cases h : items.isEmpty
  · simp [h]
  · rw [if_neg h]
    have hle : List.Pairwise (· ≤ ·) (sortItems items) :=
      List.sorted_insertionSort (· ≤ ·) items
    exact List.chain'_iff_pairwise.mp (compact_chain _ hle)

/-- Claim C2: for every finite sequence of Add, Remove and batch-construction
operations, the state after each completed operation is strictly ascending
and contains no duplicate elements. -/
theorem reachable_sorted_nodup {s : List α} (h : Reachable s) :
    List.Pairwise (· < ·) s ∧ s.Nodup := by
  have hp : List.Pairwise (· < ·) s := by
    induction h with
    | newEmpty => exact List.Pairwise.nil
    | ofBatch items => exact sorted_newFrom items
    | ofAdd e _ ih => exact sorted_add ih e
    | ofRemove e _ ih => exact sorted_remove ih e
  exact ⟨hp, hp.imp ne_of_lt⟩

/-- Witness for C2: a concrete reachable state, obtained by batch
construction followed by one Add and one Remove, is strictly sorted and
duplicate-free. -/
theorem reachable_sorted_nodup_witness :
    List.Pairwise (· < ·) (remove (add (newFrom [(3 : Int), 1, 2]) 5).1 2).1 ∧
      (remove (add (newFrom [(3 : Int), 1, 2]) 5).1 2).1.Nodup :=
  reachable_sorted_nodup
    (Reachable.ofRemove 2 (Reachable.ofAdd 5 (Reachable.ofBatch [3, 1, 2])))

/-! Add and Remove duality (claim C5). -/

lemma takeWhile_append_sandwich {p : α → Bool} {A B : List α} {e : α}
    (hA : ∀ x ∈ A, p x = true) (he : p e = false) :
    (A ++ e :: B).takeWhile p = A ∧ (A ++ e :: B).dropWhile p = e :: B := by
  induction A with
  | nil => simp [List.takeWhile_cons, List.dropWhile_cons, he]
  | cons a A ih =>
    have hpa : p a = true := hA a (by simp)
    have ih2 := ih (fun x hx => hA x (by simp [hx]))
    simp [List.takeWhile_cons, List.dropWhile_cons, hpa, ih2.1, ih2.2]

/-- Claim C5 (amended): on a sorted state, adding an element that is not yet
present and then immediately removing it restores the prior state exactly
(and the Remove reports true); adding an element that is already present
reports false and leaves the state unchanged. The unrestricted round-trip
claim fails when the element is already present, see the counterexample. -/
theorem add_remove_duality {s : List α} (hs : List.Pairwise (· < ·) s) (e : α) :
    (e ∉ s → remove (add s e).1 e = (s, true)) ∧
    (e ∈ s → add s e = (s, false)) := by
  constructor
  · intro hm
    have hf : (binarySearch s e).2 = false := by
      rw [← Bool.not_eq_true, binarySearch_found_iff_mem hs]
      exact hm
    have h1 : (add s e).1 = s.takeWhile (fun a => decide (a < e)) ++
        e :: s.dropWhile (fun a => decide (a < e)) := by
      simp only [add, hf, Bool.false_eq_true, if_false]
      rw [insertAt, binarySearch_take, binarySearch_drop]
    set A := s.takeWhile (fun a => decide (a < e)) with hAdef
    set B := s.dropWhile (fun a => decide (a < e)) with hBdef
    have hA : ∀ x ∈ A, (fun a => decide (a < e)) x = true := by
      intro x hx
      rw [hAdef] at hx
      simpa using List.mem_takeWhile_imp hx
    have he : (fun a => decide (a < e)) e = false := by simp
    have hsand := takeWhile_append_sandwich (B := B) hA he
    have hfst : (binarySearch (A ++ e :: B) e).1 = A.length := by
      rw [binarySearch_fst, hsand.1]
    have hfound : (binarySearch (A ++ e :: B) e).2 = true :=
      (binarySearch_found _ e).mpr ⟨B, hsand.2⟩
    rw [h1, remove, hfound]
    simp only [if_true]
    have hdel : deleteRange (A ++ e :: B) A.length (A.length + 1) = A ++ B := by
      unfold deleteRange
      have ht : (A ++ e :: B).take A.length = A := List.take_left A _
      have hd : (A ++ e :: B).drop (A.length + 1) = B := by
        have : A ++ e :: B = (A ++ [e]) ++ B := by simp
        rw [this, show A.length + 1 = (A ++ [e]).length by simp]
        exact List.drop_left _ _
      rw [ht, hd]
    rw [hfst, hdel, hAdef, hBdef, List.takeWhile_append_dropWhile]
  · intro hm
    have hf : (binarySearch s e).2 = true :=
      (binarySearch_found_iff_mem hs e).mpr hm
    simp [add, hf]

/-- Counterexample for C5 as stated: on the container holding exactly 1,
Add(1) is a no-op (the element is present) but the following Remove(1)
deletes it, so the snapshot after the round trip is empty, not the prior
snapshot. -/
theorem add_remove_duality_cex :
    ¬ (remove (add ([1] : List Int) 1).1 1).1 = [1] := by decide

/-- Witness for C5: the round trip at an absent element restores the state,
and adding a present element reports false. -/
theorem add_remove_duality_witness :
    remove (add ([1, 3] : List Int) 2).1 2 = ([1, 3], true) ∧
    add ([1, 3] : List Int) 1 = ([1, 3], false) :=
  ⟨(add_remove_duality (by decide) 2).1 (by decide),
   (add_remove_duality (by decide) 1).2 (by decide)⟩

/-! MinK and MaxK (claim C8). -/

/-- Claim C8: a negative count makes MinK and MaxK panic; a nonnegative
count k makes MinK return the ascending prefix and MaxK the ascending
suffix of the snapshot of length min(k, N), and a count at least the size
returns the whole snapshot rather than an error. -/
theorem minK_maxK_spec (s : List α) (k : Int) :
    (k < 0 → minK s k = none ∧ maxK s k = none) ∧
    (0 ≤ k →
      minK s k = some (s.take (min k.toNat s.length)) ∧
      maxK s k = some (s.drop (s.length - min k.toNat s.length)) ∧
      (s.take (min k.toNat s.length)).length = min k.toNat s.length ∧
      (s.drop (s.length - min k.toNat s.length)).length = min k.toNat s.length ∧
      ((s.length : Int) ≤ k → minK s k = some s ∧ maxK s k = some s)) := by
  constructor
  · intro hk
    simp [minK, maxK, hk]
  · intro hk
    have hk2 : ¬ k < 0 := not_lt.mpr hk
    refine ⟨by simp [minK, hk2], by simp [maxK, hk2], ?_, ?_, ?_⟩
    · rw [List.length_take]; omega
    · rw [List.length_drop]; omega
    · intro hlen
      have hmin : min k.toNat s.length = s.length := by omega
      refine ⟨?_, ?_⟩
      · simp [minK, hk2, hmin, List.take_length]
      · simp [maxK, hk2, hmin]

/-- Witness for C8: MinK and MaxK on a three-element container with count
two return the two smallest and two largest elements, and a negative count
panics. -/
theorem minK_maxK_spec_witness :
    minK ([10, 20, 30] : List Int) 2 = some [10, 20] ∧
    maxK ([10, 20, 30] : List Int) 2 = some [20, 30] ∧
    minK ([10, 20, 30] : List Int) (-1) = none := by
  refine ⟨?_, ?_, ?_⟩
  · rw [((minK_maxK_spec ([10, 20, 30] : List Int) 2).2 (by norm_num)).1]; decide
  · rw [((minK_maxK_spec ([10, 20, 30] : List Int) 2).2 (by norm_num)).2.1]; decide
  · exact ((minK_maxK_spec ([10, 20, 30] : List Int) (-1)).1 (by norm_num)).1

/-! RemoveBetween (claim C6). -/

lemma binarySearch_fst_le (s : List α) (e : α) : (binarySearch s e).1 ≤ s.length := by
  rw [binarySearch_fst]
  exact (List.takeWhile_sublist _).length_le

lemma binarySearch_fst_mono {s : List α} {mn mx : α} (h : mn ≤ mx) :
    (binarySearch s mn).1 ≤ (binarySearch s mx).1 := by
  induction s with
  | nil => exact le_refl _
  | cons a t ih =>
    by_cases h1 : a < mn
    · have h2 : a < mx := lt_of_lt_of_le h1 h
      simp only [binarySearch, if_pos h1, if_pos h2]
      omega
    · simp only [binarySearch, if_neg h1]
      by_cases h2 : a < mx <;> simp [h2]

lemma takeWhile_dropWhile_filter {s : List α} (hs : List.Pairwise (· < ·) s)
    {mn mx : α} (h : mn ≤ mx) :
    s.takeWhile (fun a => decide (a < mn)) ++ s.dropWhile (fun a => decide (a < mx))
      = s.filter (fun x => !decide (mn ≤ x ∧ x < mx)) := by
  induction s with
  | nil => rfl
  | cons a t ih =>
    obtain ⟨ha, ht⟩ := List.pairwise_cons.mp hs
    by_cases h1 : a < mn
    · have h2 : a < mx := lt_of_lt_of_le h1 h
      have hkeep : (!decide (mn ≤ a ∧ a < mx)) = true := by
        simp [not_le.mpr h1]
      simp only [List.takeWhile_cons, List.dropWhile_cons, List.filter_cons,
        decide_eq_true h1, decide_eq_true h2, if_true, hkeep, List.cons_append]
      rw [ih ht]
    · by_cases h2 : a < mx
      · have hdrop : (!decide (mn ≤ a ∧ a < mx)) = false := by
          simp [not_lt.mp h1, h2]
        have htw : t.takeWhile (fun a => decide (a < mn)) = [] := by
          cases t with
          | nil => rfl
          | cons b t2 =>
            have hb : ¬ b < mn := by
              have := ha b (by simp)
              exact fun hbmn => h1 (lt_trans this hbmn)
            simp [List.takeWhile_cons, hb]
        simp only [List.takeWhile_cons, List.dropWhile_cons, List.filter_cons,
          decide_eq_false h1, decide_eq_true h2, if_true, hdrop,
          Bool.false_eq_true, if_false, List.nil_append]
        rw [← ih ht, htw, List.nil_append]
      · have hkeep : (!decide (mn ≤ a ∧ a < mx)) = true := by simp [h2]
        have hfil : t.filter (fun x => !decide (mn ≤ x ∧ x < mx)) = t := by
          rw [List.filter_eq_self]
          intro y hy
          have hay : a < y := ha y hy
          have : ¬ y < mx := fun hymx => h2 (lt_trans hay hymx)
          simp [this]
        simp only [List.takeWhile_cons, List.dropWhile_cons, List.filter_cons,
          decide_eq_false h1, decide_eq_false h2, Bool.false_eq_true, if_false,
          hkeep, if_true, List.nil_append, hfil]

lemma removeBetween_sorted {s : List α} (hs : List.Pairwise (· < ·) s) (mn mx : α) :
    (mx < mn → removeBetween s mn mx = none) ∧
    (mn ≤ mx → ∃ p, removeBetween s mn mx = some p ∧
      p.1 = s.filter (fun x => !decide (mn ≤ x ∧ x < mx)) ∧
      p.2 = s.length - p.1.length) := by
  constructor
  · intro hlt
    simp [removeBetween, hlt]
  · intro hle
    have hnlt : ¬ mx < mn := not_lt.mpr hle
    have hmono : (binarySearch s mn).1 ≤ (binarySearch s mx).1 :=
      binarySearch_fst_mono hle
    have hstop : (binarySearch s mx).1 ≤ s.length := binarySearch_fst_le s mx
    have hfil : s.take (binarySearch s mn).1 ++ s.drop (binarySearch s mx).1
        = s.filter (fun x => !decide (mn ≤ x ∧ x < mx)) := by
      rw [binarySearch_take, binarySearch_drop]
      exact takeWhile_dropWhile_filter hs hle
    by_cases heq : (binarySearch s mn).1 = (binarySearch s mx).1
    · refine ⟨(s, 0), by simp [removeBetween, hnlt, heq], ?_, ?_⟩
      · show s = s.filter (fun x => !decide (mn ≤ x ∧ x < mx))
        rw [← hfil, heq, List.take_append_drop]
      · show 0 = s.length - s.length
        omega
    · refine ⟨(deleteRange s (binarySearch s mn).1 (binarySearch s mx).1,
        (binarySearch s mx).1 - (binarySearch s mn).1),
        by simp [removeBetween, hnlt, heq], ?_, ?_⟩
      · exact hfil
      · have hlen : (deleteRange s (binarySearch s mn).1 (binarySearch s mx).1).length
            = (binarySearch s mn).1 + (s.length - (binarySearch s mx).1) := by
          unfold deleteRange
          rw [List.length_append, List.length_take, List.length_drop]
          omega
        simp only [hlen]
        omega

/-- Claim C6: RemoveBetween panics on an inverted range and leaves the state
untouched (the panic fires before any mutation); on a valid range over a
sorted state it removes exactly the elements of the half-open interval from
min to max, keeps every other element in place, and reports the number of
elements removed; on the container 1,2,3,4 the call with min 2 and max 4
removes two elements and leaves 1,4. -/
theorem removeBetween_spec :
    (∀ {β : Type} [inst : LinearOrder β] (s : List β) (mn mx : β),
      List.Pairwise (· < ·) s →
      (mx < mn → removeBetween s mn mx = none) ∧
      (mn ≤ mx → ∃ p, removeBetween s mn mx = some p ∧
        p.1 = s.filter (fun x => !decide (mn ≤ x ∧ x < mx)) ∧
        p.2 = s.length - p.1.length)) ∧
    removeBetween ([1, 2, 3, 4] : List Int) 2 4 = some ([1, 4], 2) := by
  refine ⟨?_, by decide⟩
  intro β inst s mn mx hs
  exact removeBetween_sorted hs mn mx

/-- Witness for C6: the inverted range with min 4 and max 2 panics. -/
theorem removeBetween_spec_witness :
    removeBetween ([1, 2, 3, 4] : List Int) 4 2 = none :=
  ((removeBetween_spec.1 ([1, 2, 3, 4] : List Int) 4 2 (by decide)).1 (by norm_num))

/-! BetweenDesc (claim C1). -/

/-- Claim C1 evaluated on concrete inputs: the documented example works (on
the container 1,3,5,7,9 the descending range with max 7 and min 3 yields 7
then 5), but the general claim fails on the code: with max 0 and min -5
(a valid range, since -5 is at most 0) the same container yields the element
1, which is greater than max, instead of yielding nothing; and on an empty
container the descending range reads index 0 out of range, a panic. -/
theorem betweenDesc_evaluations :
    betweenDesc ([1, 3, 5, 7, 9] : List Int) 7 3 = some [7, 5] ∧
    (betweenDesc ([1, 3, 5, 7, 9] : List Int) 0 (-5) = some [1] ∧
      (-5 : Int) ≤ 0 ∧ ¬ (1 : Int) ≤ 0) ∧
    betweenDesc ([] : List Int) 7 3 = none := by decide

/-! Two-pointer set algebra: characterizations on sorted inputs. -/

lemma eq_of_sorted_of_mem {l₁ l₂ : List α} (h₁ : List.Pairwise (· < ·) l₁)
    (h₂ : List.Pairwise (· < ·) l₂) (h : ∀ x, x ∈ l₁ ↔ x ∈ l₂) : l₁ = l₂ := by
  haveI : IsAntisymm α (· < ·) :=
    ⟨fun a b hab hba => absurd (lt_trans hab hba) (lt_irrefl a)⟩
  exact List.eq_of_perm_of_sorted
    ((List.perm_ext_iff_of_nodup (h₁.imp ne_of_lt) (h₂.imp ne_of_lt)).mpr h) h₁ h₂

lemma unionLoop_mem (s o : List α) (x : α) :
    x ∈ unionLoop s o ↔ x ∈ s ∨ x ∈ o := by
  induction s, o using unionLoop.induct with
  | case1 o => simp [unionLoop]
  | case2 s h => cases s with
    | nil => exact absurd rfl h
    | cons a t => simp [unionLoop]
  | case3 a s b o hab ih =>
    rw [show unionLoop (a :: s) (b :: o) = a :: unionLoop s (b :: o) by
      simp [unionLoop, hab]]
    simp only [List.mem_cons, ih]
    tauto
  | case4 a s b o h1 h2 ih =>
    rw [show unionLoop (a :: s) (b :: o) = b :: unionLoop (a :: s) o by
      simp [unionLoop, h1, h2]]
    simp only [List.mem_cons, ih]
    tauto
  | case5 a s b o h1 h2 ih =>
    have heq : a = b := le_antisymm (not_lt.mp h2) (not_lt.mp h1)
    subst heq
    rw [show unionLoop (a :: s) (a :: o) = a :: unionLoop s o by
      simp [unionLoop, h1]]
    simp only [List.mem_cons, ih]
    tauto

lemma unionLoop_sorted (s o : List α) :
    List.Pairwise (· < ·) s → List.Pairwise (· < ·) o →
    List.Pairwise (· < ·) (unionLoop s o) := by
  induction s, o using unionLoop.induct with
  | case1 o => intro _ h2; simpa [unionLoop] using h2
  | case2 s h =>
    intro h1 _
    cases s with
    | nil => exact absurd rfl h
    | cons a t => simpa [unionLoop] using h1
  | case3 a s b o hab ih =>
    intro h1 h2
    obtain ⟨ha, hs⟩ := List.pairwise_cons.mp h1
    rw [show unionLoop (a :: s) (b :: o) = a :: unionLoop s (b :: o) by
      simp [unionLoop, hab]]
    rw [List.pairwise_cons]
    refine ⟨?_, ih hs h2⟩
    intro y hy
    rcases (unionLoop_mem s (b :: o) y).mp hy with hys | hyo
    · exact ha y hys
    · rcases List.mem_cons.mp hyo with rfl | hyo2
      · exact hab
      · exact lt_trans hab ((List.pairwise_cons.mp h2).1 y hyo2)
  | case4 a s b o h1' h2' ih =>
    intro h1 h2
    obtain ⟨hb, ho⟩ := List.pairwise_cons.mp h2
    rw [show unionLoop (a :: s) (b :: o) = b :: unionLoop (a :: s) o by
      simp [unionLoop, h1', h2']]
    rw [List.pairwise_cons]
    refine ⟨?_, ih h1 ho⟩
    intro y hy
    rcases (unionLoop_mem (a :: s) o y).mp hy with hys | hyo
    · rcases List.mem_cons.mp hys with rfl | hys2
      · exact h2'
      · exact lt_trans h2' ((List.pairwise_cons.mp h1).1 y hys2)
    · exact hb y hyo
  | case5 a s b o h1' h2' ih =>
    intro h1 h2
    have heq : a = b := le_antisymm (not_lt.mp h2') (not_lt.mp h1')
    subst heq
    obtain ⟨ha, hs⟩ := List.pairwise_cons.mp h1
    obtain ⟨hb, ho⟩ := List.pairwise_cons.mp h2
    rw [show unionLoop (a :: s) (a :: o) = a :: unionLoop s o by
      simp [unionLoop, h1']]
    rw [List.pairwise_cons]
    refine ⟨?_, ih hs ho⟩
    intro y hy
    rcases (unionLoop_mem s o y).mp hy with hys | hyo
    · exact ha y hys
    · exact hb y hyo

lemma diffLoop_eq_filter (s o : List α) :
    List.Pairwise (· < ·) s → List.Pairwise (· < ·) o →
    diffLoop s o = s.filter (fun x => !decide (x ∈ o)) := by
  induction s, o using diffLoop.induct with
  | case1 o => intro _ _; simp [diffLoop]
  | case2 s h =>
    intro _ _
    cases s with
    | nil => exact absurd rfl h
    | cons a t =>
      rw [show diffLoop (a :: t) [] = a :: t by simp [diffLoop]]
      rw [List.filter_eq_self.mpr]
      intro y _
      simp
  | case3 a s b o hab ih =>
    intro h1 h2
    obtain ⟨ha, hs⟩ := List.pairwise_cons.mp h1
    obtain ⟨hb, ho⟩ := List.pairwise_cons.mp h2
    have hanotin : a ∉ (b :: o) := by
      intro hmem
      rcases List.mem_cons.mp hmem with rfl | hmo
      · exact lt_irrefl a hab
      · exact lt_asymm hab (hb a hmo)
    rw [show diffLoop (a :: s) (b :: o) = a :: diffLoop s (b :: o) by
      simp [diffLoop, hab]]
    rw [ih hs h2, List.filter_cons, if_pos (by simp [hanotin])]
  | case4 a s b o h1' h2' ih =>
    intro h1 h2
    obtain ⟨hb, ho⟩ := List.pairwise_cons.mp h2
    rw [show diffLoop (a :: s) (b :: o) = diffLoop (a :: s) o by
      simp [diffLoop, h1', h2']]
    rw [ih h1 ho]
    apply List.filter_congr
    intro x hx
    have hxb : x ≠ b := by
      rcases List.mem_cons.mp hx with rfl | hxs
      · exact fun hxb => lt_irrefl x (hxb ▸ h2')
      · intro hxb
        have hbx : b < x := lt_trans h2' ((List.pairwise_cons.mp h1).1 x hxs)
        rw [hxb] at hbx
        exact lt_irrefl b hbx
    simp [List.mem_cons, hxb]
  | case5 a s b o h1' h2' ih =>
    intro h1 h2
    have heq : a = b := le_antisymm (not_lt.mp h2') (not_lt.mp h1')
    subst heq
    obtain ⟨ha, hs⟩ := List.pairwise_cons.mp h1
    obtain ⟨hb, ho⟩ := List.pairwise_cons.mp h2
    rw [show diffLoop (a :: s) (a :: o) = diffLoop s o by simp [diffLoop, h1']]
    rw [ih hs ho, List.filter_cons, if_neg (by simp)]
    apply List.filter_congr
    intro x hx
    have hxa : x ≠ a := fun hxa => lt_irrefl x (hxa ▸ ha x hx)
    simp [List.mem_cons, hxa]

lemma interLoop_eq_filter (s o : List α) :
    List.Pairwise (· < ·) s → List.Pairwise (· < ·) o →
    interLoop s o = s.filter (fun x => decide (x ∈ o)) := by
  induction s, o using interLoop.induct with
  | case1 o => intro _ _; simp [interLoop]
  | case2 s h =>
    intro _ _
    cases s with
    | nil => exact absurd rfl h
    | cons a t =>
      rw [show interLoop (a :: t) [] = [] by simp [interLoop]]
      rw [eq_comm, List.filter_eq_nil_iff]
      intro y _
      simp
  | case3 a s b o hab ih =>
    intro h1 h2
    obtain ⟨ha, hs⟩ := List.pairwise_cons.mp h1
    obtain ⟨hb, ho⟩ := List.pairwise_cons.mp h2
    have hanotin : a ∉ (b :: o) := by
      intro hmem
      rcases List.mem_cons.mp hmem with rfl | hmo
      · exact lt_irrefl a hab
      · exact lt_asymm hab (hb a hmo)
    rw [show interLoop (a :: s) (b :: o) = interLoop s (b :: o) by
      simp [interLoop, hab]]
    rw [ih hs h2, List.filter_cons, if_neg (by simp [hanotin])]
  | case4 a s b o h1' h2' ih =>
    intro h1 h2
    obtain ⟨hb, ho⟩ := List.pairwise_cons.mp h2
    rw [show interLoop (a :: s) (b :: o) = interLoop (a :: s) o by
      simp [interLoop, h1', h2']]
    rw [ih h1 ho]
    apply List.filter_congr
    intro x hx
    have hxb : x ≠ b := by
      rcases List.mem_cons.mp hx with rfl | hxs
      · exact fun hxb => lt_irrefl x (hxb ▸ h2')
      · intro hxb
        have hbx : b < x := lt_trans h2' ((List.pairwise_cons.mp h1).1 x hxs)
        rw [hxb] at hbx
        exact lt_irrefl b hbx
    simp [List.mem_cons, hxb]
  | case5 a s b o h1' h2' ih =>
    intro h1 h2
    have heq : a = b := le_antisymm (not_lt.mp h2') (not_lt.mp h1')
    subst heq
    obtain ⟨ha, hs⟩ := List.pairwise_cons.mp h1
    obtain ⟨hb, ho⟩ := List.pairwise_cons.mp h2
    rw [show interLoop (a :: s) (a :: o) = a :: interLoop s o by
      simp [interLoop, h1']]
    rw [ih hs ho, List.filter_cons, if_pos (by simp)]
    congr 1
    apply List.filter_congr
    intro x hx
    have hxa : x ≠ a := fun hxa => lt_irrefl x (hxa ▸ ha x hx)
    simp [List.mem_cons, hxa]

lemma sdiffLoop_mem (s o : List α) :
    List.Pairwise (· < ·) s → List.Pairwise (· < ·) o → ∀ x,
    (x ∈ sdiffLoop s o ↔ (x ∈ s ∧ x ∉ o) ∨ (x ∈ o ∧ x ∉ s)) := by
  induction s, o using sdiffLoop.induct with
  | case1 o => intro _ _ x; simp [sdiffLoop]
  | case2 s h =>
    intro _ _ x
    cases s with
    | nil => exact absurd rfl h
    | cons a t => simp [sdiffLoop]
  | case3 a s b o hab ih =>
    intro h1 h2 x
    obtain ⟨ha, hs⟩ := List.pairwise_cons.mp h1
    obtain ⟨hb, ho⟩ := List.pairwise_cons.mp h2
    have hanotin : a ∉ (b :: o) := by
      intro hmem
      rcases List.mem_cons.mp hmem with rfl | hmo
      · exact lt_irrefl a hab
      · exact lt_asymm hab (hb a hmo)
    rw [show sdiffLoop (a :: s) (b :: o) = a :: sdiffLoop s (b :: o) by
      simp [sdiffLoop, hab]]
    by_cases hxa : x = a
    · subst hxa
      exact iff_of_true (by simp) (Or.inl ⟨by simp, hanotin⟩)
    · simp only [List.mem_cons, hxa, false_or, ih hs h2 x]
  | case4 a s b o h1' h2' ih =>
    intro h1 h2 x
    obtain ⟨ha, hs⟩ := List.pairwise_cons.mp h1
    obtain ⟨hb, ho⟩ := List.pairwise_cons.mp h2
    have hbnotin : b ∉ (a :: s) := by
      intro hmem
      rcases List.mem_cons.mp hmem with rfl | hms
      · exact lt_irrefl b h2'
      · exact lt_asymm h2' (ha b hms)
    rw [show sdiffLoop (a :: s) (b :: o) = b :: sdiffLoop (a :: s) o by
      simp [sdiffLoop, h1', h2']]
    by_cases hxb : x = b
    · subst hxb
      exact iff_of_true (by simp) (Or.inr ⟨by simp, hbnotin⟩)
    · simp only [List.mem_cons, hxb, false_or, ih h1 ho x]
  | case5 a s b o h1' h2' ih =>
    intro h1 h2 x
    have heq : a = b := le_antisymm (not_lt.mp h2') (not_lt.mp h1')
    subst heq
    obtain ⟨ha, hs⟩ := List.pairwise_cons.mp h1
    obtain ⟨hb, ho⟩ := List.pairwise_cons.mp h2
    have hans : a ∉ s := fun hmem => lt_irrefl a (ha a hmem)
    have hano : a ∉ o := fun hmem => lt_irrefl a (hb a hmem)
    rw [show sdiffLoop (a :: s) (a :: o) = sdiffLoop s o by simp [sdiffLoop, h1']]
    by_cases hxa : x = a
    · subst hxa
      rw [ih hs ho x]
      simp [hans, hano]
    · simp only [List.mem_cons, hxa, false_or, ih hs ho x]

lemma sdiffLoop_sorted (s o : List α) :
    List.Pairwise (· < ·) s → List.Pairwise (· < ·) o →
    List.Pairwise (· < ·) (sdiffLoop s o) := by
  induction s, o using sdiffLoop.induct with
  | case1 o => intro _ h2; simpa [sdiffLoop] using h2
  | case2 s h =>
    intro h1 _
    cases s with
    | nil => exact absurd rfl h
    | cons a t => simpa [sdiffLoop] using h1
  | case3 a s b o hab ih =>
    intro h1 h2
    obtain ⟨ha, hs⟩ := List.pairwise_cons.mp h1
    obtain ⟨hb, ho⟩ := List.pairwise_cons.mp h2
    rw [show sdiffLoop (a :: s) (b :: o) = a :: sdiffLoop s (b :: o) by
      simp [sdiffLoop, hab]]
    rw [List.pairwise_cons]
    refine ⟨?_, ih hs h2⟩
    intro y hy
    rcases ((sdiffLoop_mem s (b :: o) hs h2 y).mp hy) with ⟨hys, _⟩ | ⟨hyo, _⟩
    · exact ha y hys
    · rcases List.mem_cons.mp hyo with rfl | hyo2
      · exact hab
      · exact lt_trans hab (hb y hyo2)
  | case4 a s b o h1' h2' ih =>
    intro h1 h2
    obtain ⟨ha, hs⟩ := List.pairwise_cons.mp h1
    obtain ⟨hb, ho⟩ := List.pairwise_cons.mp h2
    rw [show sdiffLoop (a :: s) (b :: o) = b :: sdiffLoop (a :: s) o by
      simp [sdiffLoop, h1', h2']]
    rw [List.pairwise_cons]
    refine ⟨?_, ih h1 ho⟩
    intro y hy
    rcases ((sdiffLoop_mem (a :: s) o h1 ho y).mp hy) with ⟨hys, _⟩ | ⟨hyo, _⟩
    · rcases List.mem_cons.mp hys with rfl | hys2
      · exact h2'
      · exact lt_trans h2' (ha y hys2)
    · exact hb y hyo
  | case5 a s b o h1' h2' ih =>
    intro h1 h2
    have heq : a = b := le_antisymm (not_lt.mp h2') (not_lt.mp h1')
    subst heq
    obtain ⟨_, hs⟩ := List.pairwise_cons.mp h1
    obtain ⟨_, ho⟩ := List.pairwise_cons.mp h2
    rw [show sdiffLoop (a :: s) (a :: o) = sdiffLoop s o by simp [sdiffLoop, h1']]
    exact ih hs ho

lemma partitionLoop_eq (s o : List α) :
    partitionLoop s o = (diffLoop s o, interLoop s o, diffLoop o s) := by
  induction s, o using partitionLoop.induct with
  | case1 o => cases o <;> simp [partitionLoop, diffLoop, interLoop]
  | case2 s h =>
    cases s with
    | nil => exact absurd rfl h
    | cons a t => simp [partitionLoop, diffLoop, interLoop]
  | case3 a s b o hab ih =>
    have hnba : ¬ b < a := lt_asymm hab
    rw [show partitionLoop (a :: s) (b :: o) =
        (a :: (partitionLoop s (b :: o)).1, (partitionLoop s (b :: o)).2.1,
          (partitionLoop s (b :: o)).2.2) by simp [partitionLoop, hab]]
    rw [ih]
    rw [show diffLoop (a :: s) (b :: o) = a :: diffLoop s (b :: o) by
      simp [diffLoop, hab]]
    rw [show interLoop (a :: s) (b :: o) = interLoop s (b :: o) by
      simp [interLoop, hab]]
    rw [show diffLoop (b :: o) (a :: s) = diffLoop (b :: o) s by
      simp [diffLoop, hab, hnba]]
  | case4 a s b o h1' h2' ih =>
    rw [show partitionLoop (a :: s) (b :: o) =
        ((partitionLoop (a :: s) o).1, (partitionLoop (a :: s) o).2.1,
          b :: (partitionLoop (a :: s) o).2.2) by simp [partitionLoop, h1', h2']]
    rw [ih]
    rw [show diffLoop (a :: s) (b :: o) = diffLoop (a :: s) o by
      simp [diffLoop, h1', h2']]
    rw [show interLoop (a :: s) (b :: o) = interLoop (a :: s) o by
      simp [interLoop, h1', h2']]
    rw [show diffLoop (b :: o) (a :: s) = b :: diffLoop o (a :: s) by
      simp [diffLoop, h2']]
  | case5 a s b o h1' h2' ih =>
    rw [show partitionLoop (a :: s) (b :: o) =
        ((partitionLoop s o).1, a :: (partitionLoop s o).2.1,
          (partitionLoop s o).2.2) by simp [partitionLoop, h1', h2']]
    rw [ih]
    rw [show diffLoop (a :: s) (b :: o) = diffLoop s o by
      simp [diffLoop, h1', h2']]
    rw [show interLoop (a :: s) (b :: o) = a :: interLoop s o by
      simp [interLoop, h1', h2']]
    rw [show diffLoop (b :: o) (a :: s) = diffLoop o s by
      simp [diffLoop, h1', h2']]

/-! Wrapper-level characterizations including the empty-input shortcuts. -/

lemma difference_eq_filter {s o : List α} (hs : List.Pairwise (· < ·) s)
    (ho : List.Pairwise (· < ·) o) :
    difference s o = s.filter (fun x => !decide (x ∈ o)) := by
  cases s with
  | nil => simp [difference]
  | cons a t =>
    cases o with
    | nil =>
      rw [show difference (a :: t) [] = a :: t by simp [difference]]
      rw [eq_comm, List.filter_eq_self]
      intro y _
      simp
    | cons b u =>
      rw [show difference (a :: t) (b :: u) = diffLoop (a :: t) (b :: u) by
        simp [difference]]
      exact diffLoop_eq_filter _ _ hs ho

lemma intersect_eq_filter {s o : List α} (hs : List.Pairwise (· < ·) s)
    (ho : List.Pairwise (· < ·) o) :
    intersect s o = s.filter (fun x => decide (x ∈ o)) := by
  cases s with
  | nil => simp [intersect]
  | cons a t =>
    cases o with
    | nil =>
      rw [show intersect (a :: t) [] = [] by simp [intersect]]
      rw [eq_comm, List.filter_eq_nil_iff]
      intro y _
      simp
    | cons b u =>
      rw [show intersect (a :: t) (b :: u) = interLoop (a :: t) (b :: u) by
        simp [intersect]]
      exact interLoop_eq_filter _ _ hs ho

lemma union_mem (s o : List α) (x : α) : x ∈ union s o ↔ x ∈ s ∨ x ∈ o := by
  cases s with
  | nil => simp [union]
  | cons a t =>
    cases o with
    | nil => simp [union]
    | cons b u =>
      rw [show union (a :: t) (b :: u) = unionLoop (a :: t) (b :: u) by simp [union]]
      exact unionLoop_mem _ _ x

lemma union_sorted {s o : List α} (hs : List.Pairwise (· < ·) s)
    (ho : List.Pairwise (· < ·) o) : List.Pairwise (· < ·) (union s o) := by
  cases s with
  | nil => simpa [union] using ho
  | cons a t =>
    cases o with
    | nil => simpa [union] using hs
    | cons b u =>
      rw [show union (a :: t) (b :: u) = unionLoop (a :: t) (b :: u) by simp [union]]
      exact unionLoop_sorted _ _ hs ho

lemma symmetricDifference_mem {s o : List α} (hs : List.Pairwise (· < ·) s)
    (ho : List.Pairwise (· < ·) o) (x : α) :
    x ∈ symmetricDifference s o ↔ (x ∈ s ∧ x ∉ o) ∨ (x ∈ o ∧ x ∉ s) := by
  cases s with
  | nil => simp [symmetricDifference]
  | cons a t =>
    cases o with
    | nil => simp [symmetricDifference]
    | cons b u =>
      rw [show symmetricDifference (a :: t) (b :: u) = sdiffLoop (a :: t) (b :: u) by
        simp [symmetricDifference]]
      exact sdiffLoop_mem _ _ hs ho x

lemma symmetricDifference_sorted {s o : List α} (hs : List.Pairwise (· < ·) s)
    (ho : List.Pairwise (· < ·) o) :
    List.Pairwise (· < ·) (symmetricDifference s o) := by
  cases s with
  | nil => simpa [symmetricDifference] using ho
  | cons a t =>
    cases o with
    | nil => simpa [symmetricDifference] using hs
    | cons b u =>
      rw [show symmetricDifference (a :: t) (b :: u) = sdiffLoop (a :: t) (b :: u) by
        simp [symmetricDifference]]
      exact sdiffLoop_sorted _ _ hs ho

lemma partition_eq (s o : List α) :
    partition s o = (difference s o, intersect s o, difference o s) := by
  cases s with
  | nil => cases o <;> simp [partition, difference, intersect]
  | cons a t =>
    cases o with
    | nil => simp [partition, difference, intersect]
    | cons b u =>
      rw [show partition (a :: t) (b :: u) = partitionLoop (a :: t) (b :: u) by
        simp [partition]]
      rw [partitionLoop_eq]
      rw [show difference (a :: t) (b :: u) = diffLoop (a :: t) (b :: u) by
        simp [difference]]
      rw [show intersect (a :: t) (b :: u) = interLoop (a :: t) (b :: u) by
        simp [intersect]]
      rw [show difference (b :: u) (a :: t) = diffLoop (b :: u) (a :: t) by
        simp [difference]]

/-- Claim C3: on every pair of (sorted) containers, the symmetric difference
equals the union of the two differences element for element, and Partition
returns exactly the triple of difference, intersection and swapped
difference. -/
theorem symmDiff_partition_identities {A B : List α}
    (hA : List.Pairwise (· < ·) A) (hB : List.Pairwise (· < ·) B) :
    symmetricDifference A B = union (difference A B) (difference B A) ∧
    partition A B = (difference A B, intersect A B, difference B A) := by
  refine ⟨?_, partition_eq A B⟩
  have hdAB : List.Pairwise (· < ·) (difference A B) := by
    rw [difference_eq_filter hA hB]
    exact List.Pairwise.sublist (List.filter_sublist _) hA
  have hdBA : List.Pairwise (· < ·) (difference B A) := by
    rw [difference_eq_filter hB hA]
    exact List.Pairwise.sublist (List.filter_sublist _) hB
  apply eq_of_sorted_of_mem (symmetricDifference_sorted hA hB)
    (union_sorted hdAB hdBA)
  intro x
  rw [symmetricDifference_mem hA hB x, union_mem,
    difference_eq_filter hA hB, difference_eq_filter hB hA]
  simp only [List.mem_filter, Bool.not_eq_true', decide_eq_false_iff_not]

/-- Witness for C3: the identities evaluated on the containers 1,2,3 and
2,4. -/
theorem symmDiff_partition_identities_witness :
    symmetricDifference ([1, 2, 3] : List Int) [2, 4]
        = union (difference [1, 2, 3] [2, 4]) (difference [2, 4] [1, 2, 3]) ∧
      partition ([1, 2, 3] : List Int) [2, 4]
        = (difference [1, 2, 3] [2, 4], intersect [1, 2, 3] [2, 4],
            difference [2, 4] [1, 2, 3]) :=
  symmDiff_partition_identities (by decide) (by decide)

/-! The N-ary intersection (claim C7). -/

lemma intersectFold_spec (sets : List (List α)) : ∀ (inter : List α),
    List.Pairwise (· < ·) inter → (∀ t ∈ sets, List.Pairwise (· < ·) t) →
    List.Pairwise (· < ·) (intersectFold inter sets) ∧
    (∀ x, x ∈ intersectFold inter sets ↔ x ∈ inter ∧ ∀ t ∈ sets, x ∈ t) := by
  induction sets with
  | nil =>
    intro inter hi _
    refine ⟨by simpa [intersectFold] using hi, ?_⟩
    intro x
    simp [intersectFold]
  | cons set rest ih =>
    intro inter hi hsets
    have hset : List.Pairwise (· < ·) set := hsets set (by simp)
    have hrest : ∀ t ∈ rest, List.Pairwise (· < ·) t :=
      fun t ht => hsets t (by simp [ht])
    have hnext_eq : interLoop inter set = inter.filter (fun x => decide (x ∈ set)) :=
      interLoop_eq_filter _ _ hi hset
    have hnext_sorted : List.Pairwise (· < ·) (interLoop inter set) := by
      rw [hnext_eq]
      exact List.Pairwise.sublist (List.filter_sublist _) hi
    have hnext_mem : ∀ x, x ∈ interLoop inter set ↔ x ∈ inter ∧ x ∈ set := by
      intro x
      rw [hnext_eq]
      simp [List.mem_filter]
    by_cases hne : (interLoop inter set).isEmpty
    · rw [show intersectFold inter (set :: rest) = interLoop inter set by
        simp [intersectFold, hne]]
      have hnil : interLoop inter set = [] := List.isEmpty_iff.mp hne
      refine ⟨by rw [hnil]; exact List.Pairwise.nil, ?_⟩
      intro x
      rw [hnil]
      simp only [List.not_mem_nil, false_iff]
      rintro ⟨hxi, hall⟩
      have hx : x ∈ interLoop inter set :=
        (hnext_mem x).mpr ⟨hxi, hall set (by simp)⟩
      rw [hnil] at hx
      exact (List.not_mem_nil x) hx
    · rw [show intersectFold inter (set :: rest) =
          intersectFold (interLoop inter set) rest by simp [intersectFold, hne]]
      obtain ⟨hsrt, hm⟩ := ih (interLoop inter set) hnext_sorted hrest
      refine ⟨hsrt, ?_⟩
      intro x
      rw [hm x, hnext_mem x]
      simp only [List.forall_mem_cons]
      tauto

lemma perm_forall_iff {l₁ l₂ : List (List α)} (hp : l₁.Perm l₂)
    (P : List α → Prop) : (∀ t ∈ l₁, P t) ↔ (∀ t ∈ l₂, P t) := by
  constructor <;> intro h t ht
  · exact h t (hp.mem_iff.mpr ht)
  · exact h t (hp.mem_iff.mp ht)

/-- Claim C7: the N-ary Intersect of sorted containers is sorted and holds
exactly the elements present in every input; zero inputs give an empty
container, one input gives its clone, and the documented three-set example
evaluates to 3,4. -/
theorem intersectMany_spec :
    (∀ {β : Type} [inst : LinearOrder β] (sets : List (List β)),
      (∀ t ∈ sets, List.Pairwise (· < ·) t) →
      List.Pairwise (· < ·) (intersectMany sets) ∧
      (∀ x, x ∈ intersectMany sets ↔ sets ≠ [] ∧ ∀ t ∈ sets, x ∈ t) ∧
      (∀ t, sets = [t] → intersectMany sets = t) ∧
      (sets = [] → intersectMany sets = [])) ∧
    intersectMany ([[1, 2, 3, 4], [2, 3, 4, 5], [3, 4, 5, 6]] : List (List Int))
      = [3, 4] := by
  constructor
  · intro β inst sets hsets
    cases sets with
    | nil =>
      refine ⟨by simp [intersectMany], by simp [intersectMany], by simp, fun _ => rfl⟩
    | cons s₁ rest =>
      cases rest with
      | nil =>
        refine ⟨hsets s₁ (by simp), ?_, ?_, by simp⟩
        · intro x
          simp [intersectMany]
        · intro t ht
          cases ht
          rfl
      | cons s₂ rest₂ =>
        set L : List (List β) := s₁ :: s₂ :: rest₂ with hL
        have hperm : (L.insertionSort fun u v => u.length ≤ v.length).Perm L :=
          List.perm_insertionSort _ L
        have hlen : (L.insertionSort fun u v => u.length ≤ v.length).length
            = L.length := List.length_insertionSort _ L
        rcases hSeq : L.insertionSort fun u v => u.length ≤ v.length with
          _ | ⟨first, more⟩
        · rw [hSeq] at hlen
          simp [hL] at hlen
        · have hmain : intersectMany L =
              if first.isEmpty then first else intersectFold first more := by
            rw [hL]
            show (match L.insertionSort fun u v => u.length ≤ v.length with
              | [] => []
              | first :: more =>
                if first.isEmpty then first else intersectFold first more) = _
            rw [hSeq]
          rw [hSeq] at hperm
          have hsorted_all : ∀ t ∈ first :: more, List.Pairwise (· < ·) t :=
            (perm_forall_iff hperm _).mpr hsets
          have hfirst : List.Pairwise (· < ·) first := hsorted_all first (by simp)
          have hmore : ∀ t ∈ more, List.Pairwise (· < ·) t :=
            fun t ht => hsorted_all t (by simp [ht])
          by_cases hfe : first.isEmpty
          · have hfnil : first = [] := List.isEmpty_iff.mp hfe
            rw [hmain, if_pos hfe, hfnil]
            refine ⟨List.Pairwise.nil, ?_, ?_, by simp⟩
            · intro x
              simp only [List.not_mem_nil, false_iff]
              rintro ⟨-, hall⟩
              have hfL : first ∈ L := hperm.mem_iff.mp (by simp)
              have := hall first hfL
              rw [hfnil] at this
              exact (List.not_mem_nil x) this
            · intro t ht
              rw [hL] at ht
              simp at ht
          · rw [hmain, if_neg hfe]
            obtain ⟨hsrt, hm⟩ := intersectFold_spec more first hfirst hmore
            refine ⟨hsrt, ?_, ?_, by simp⟩
            · intro x
              rw [hm x]
              have : (∀ t ∈ first :: more, x ∈ t) ↔ (∀ t ∈ L, x ∈ t) :=
                perm_forall_iff hperm _
              rw [← this]
              simp only [List.forall_mem_cons, hL]
              constructor
              · rintro ⟨h1, h2⟩
                exact ⟨by simp, h1, h2⟩
              · rintro ⟨-, h1, h2⟩
                exact ⟨h1, h2⟩
            · intro t ht
              rw [hL] at ht
              simp at ht
  · simp [intersectMany, intersectFold, interLoop, List.insertionSort,
      List.orderedInsert]

/-- Witness for C7: the characterization applied to two concrete sorted
sets. -/
theorem intersectMany_spec_witness :
    2 ∈ intersectMany ([[1, 2], [2, 4]] : List (List Int)) ↔
      ([[1, 2], [2, 4]] : List (List Int)) ≠ [] ∧
        ∀ t ∈ ([[1, 2], [2, 4]] : List (List Int)), 2 ∈ t :=
  ((intersectMany_spec.1 [[1, 2], [2, 4]] (by decide)).2.1 2)

/-! Non-mutation of algebra inputs (claim C4). -/

/-- Claim C4: in the state-passing model of the five binary algebra
operations, the post-call snapshots of both inputs are identical to the
pre-call snapshots; the result component is built by the operation itself
into freshly allocated storage. -/
theorem algebra_frame (A B : List α) :
    (intersectCall A B).1 = A ∧ (intersectCall A B).2.1 = B ∧
    (differenceCall A B).1 = A ∧ (differenceCall A B).2.1 = B ∧
    (unionCall A B).1 = A ∧ (unionCall A B).2.1 = B ∧
    (symmetricDifferenceCall A B).1 = A ∧ (symmetricDifferenceCall A B).2.1 = B ∧
    (partitionCall A B).1 = A ∧ (partitionCall A B).2.1 = B :=
  ⟨rfl, rfl, rfl, rfl, rfl, rfl, rfl, rfl, rfl, rfl⟩

/-! The in-place batch constructor of the Set variant (claim C9). -/

/-- Claim C9: the Set-variant batch constructor From adopts the callers
slice: on a non-empty input the adopted storage is the sorted deduplicated
sequence, and the caller afterwards sees that sequence followed by zeroed
slots up to the original length (in general a different sequence than the
one passed in, as the concrete input 3,1,3 shows), while the Ordered-variant
NewFrom clones first and leaves the callers slice unchanged. -/
theorem setFrom_mutates_newFrom_clones :
    (∀ (items : List Int), (newFromCall items).1 = items) ∧
    (∀ (items : List Int), items ≠ [] →
      (setFrom items).2 = newFrom items ∧
      (setFrom items).1 =
        newFrom items ++ List.replicate (items.length - (newFrom items).length) 0) ∧
    ((setFrom [3, 1, 3]).1 = [1, 3, 0] ∧ ([1, 3, 0] : List Int) ≠ [3, 1, 3]) := by
  refine ⟨fun items => rfl, ?_, by decide⟩
  intro items hne
  have hie : items.isEmpty = false := by
    rw [Bool.eq_false_iff]
    exact fun h => hne (List.isEmpty_iff.mp h)
  have hlen : (sortItems items).length = items.length :=
    List.length_insertionSort _ items
  constructor
  · simp [setFrom, newFrom, hie]
  · simp only [setFrom, newFrom, hie, Bool.false_eq_true, if_false, hlen]

/-- Witness for C9: the characterization applied to the concrete non-empty
input 2,2. -/
theorem setFrom_mutates_newFrom_clones_witness :
    (setFrom [2, 2]).2 = newFrom [2, 2] ∧
    (setFrom [2, 2]).1 = newFrom [2, 2] ++
      List.replicate (([2, 2] : List Int).length - (newFrom ([2, 2] : List Int)).length) 0 :=
  setFrom_mutates_newFrom_clones.2.1 [2, 2] (by decide)

/-! Comparator usage of the Custom variant (claim C10). -/

lemma equalFunc_iff_forall₂ {T : Type} (c : T → T → Int) (l₁ l₂ : List T) :
    Custom.equalFunc c l₁ l₂ = true ↔
      List.Forall₂ (fun a b => c a b = 0) l₁ l₂ := by
  induction l₁ generalizing l₂ with
  | nil => cases l₂ <;> simp [Custom.equalFunc]
  | cons a s ih =>
    cases l₂ with
    | nil => simp [Custom.equalFunc]
    | cons b o =>
      simp [Custom.equalFunc, List.forall₂_cons, ih]

/-- Counterexample for C10 as stated: Union on an empty receiver returns a
clone of the other container, so the result carries the comparator of the
other container, not that of the receiver. -/
theorem custom_receiver_comparator_cex :
    ¬ ((Custom.union (⟨([] : List Int), fun a b => a - b⟩ : Custom Int)
        ⟨[1], fun a b => b - a⟩).cmp = fun a b => a - b) := by
  intro h
  have hL : (Custom.union (⟨([] : List Int), fun a b => a - b⟩ : Custom Int)
      ⟨[1], fun a b => b - a⟩).cmp 0 1 = 1 := rfl
  rw [h] at hL
  norm_num at hL

/-- Claim C10 (amended): IsEqual, Intersect and Difference use only the
receivers comparator and their results carry it unconditionally; Union,
SymmetricDifference and Partition do so whenever the receiver is non-empty
(with an empty receiver they return clones of the other container carrying
the other comparator, see the counterexample); and IsEqual is true exactly
when the two sequences are element-wise equivalent under the receivers
comparator, regardless of any fields the comparator ignores. -/
theorem custom_receiver_comparator {T : Type} (s o : Custom T) (c' : T → T → Int) :
    (Custom.isEqual s ⟨o.items, c'⟩ = Custom.isEqual s o) ∧
    (Custom.intersect s ⟨o.items, c'⟩ = Custom.intersect s o ∧
      (Custom.intersect s o).cmp = s.cmp) ∧
    (Custom.difference s ⟨o.items, c'⟩ = Custom.difference s o ∧
      (Custom.difference s o).cmp = s.cmp) ∧
    (s.items ≠ [] →
      Custom.union s ⟨o.items, c'⟩ = Custom.union s o ∧
      (Custom.union s o).cmp = s.cmp ∧
      Custom.symmetricDifference s ⟨o.items, c'⟩ = Custom.symmetricDifference s o ∧
      (Custom.symmetricDifference s o).cmp = s.cmp ∧
      Custom.partition s ⟨o.items, c'⟩ = Custom.partition s o ∧
      (Custom.partition s o).1.cmp = s.cmp ∧
      (Custom.partition s o).2.1.cmp = s.cmp ∧
      (Custom.partition s o).2.2.cmp = s.cmp) ∧
    (Custom.isEqual s o = true ↔
      List.Forall₂ (fun a b => s.cmp a b = 0) s.items o.items) := by
  refine ⟨rfl, ⟨rfl, ?_⟩, ⟨rfl, ?_⟩, ?_, ?_⟩
  · unfold Custom.intersect
    split <;> rfl
  · unfold Custom.difference
    split
    · rfl
    · split <;> rfl
  · intro hne
    have hie : s.items.isEmpty = false := by
      rw [Bool.eq_false_iff]
      exact fun h => hne (List.isEmpty_iff.mp h)
    refine ⟨?_, ?_, ?_, ?_, ?_, ?_, ?_, ?_⟩
    · simp [Custom.union, hie]
    · unfold Custom.union
      rw [if_neg (by simp [hie])]
      split <;> rfl
    · simp [Custom.symmetricDifference, hie]
    · unfold Custom.symmetricDifference
      rw [if_neg (by simp [hie])]
      split <;> rfl
    · simp [Custom.partition, hie]
    · unfold Custom.partition
      rw [if_neg (by simp [hie])]
      split <;> rfl
    · unfold Custom.partition
      rw [if_neg (by simp [hie])]
      split <;> rfl
    · unfold Custom.partition
      rw [if_neg (by simp [hie])]
      split <;> rfl
  · exact equalFunc_iff_forall₂ s.cmp s.items o.items

/-- Witness for C10: two one-element containers of pairs whose elements
differ in the second coordinate are equal under a first-coordinate
comparator, and the comparator propagation applied to a non-empty
receiver. -/
theorem custom_receiver_comparator_witness :
    Custom.isEqual
        (⟨[((1 : Int), (10 : Int))], fun a b => a.1 - b.1⟩ : Custom (Int × Int))
        ⟨[(1, 20)], fun a b => a.1 - b.1⟩ = true ∧
    (Custom.union (⟨[(5 : Int)], fun a b => a - b⟩ : Custom Int)
        ⟨[7], fun a b => b - a⟩).cmp = fun a b => a - b :=
  ⟨(custom_receiver_comparator
      (⟨[((1 : Int), (10 : Int))], fun a b => a.1 - b.1⟩ : Custom (Int × Int))
      ⟨[(1, 20)], fun a b => a.1 - b.1⟩ (fun _ _ => 0)).2.2.2.2.mpr
        (List.forall₂_cons.mpr ⟨by decide, List.Forall₂.nil⟩),
   ((custom_receiver_comparator (⟨[(5 : Int)], fun a b => a - b⟩ : Custom Int)
      ⟨[7], fun a b => b - a⟩ (fun a b => b - a)).2.2.2.1 (by simp)).2.1⟩

end Smallset
